import Mathlib

/-!
Verification of the scheduler core of `bfpimentel/scheduler`.

The embedded code is the roster-merging and duty-assignment logic of
`src/app/page.tsx` (`updateMember`, `generateSchedule`, `monthDates`) together
with `randomInt` from `src/lib/utils.ts`.  JavaScript `Date` values are
modelled as a local calendar-day number paired with the milliseconds elapsed
within that day, so that `date-fns` `isEqual` (timestamp equality) and
same-calendar-day equality are both expressible.  The unbounded
`while (true)` accept/reject sampling loop of `generateSchedule` is modelled
with an explicit retry budget (`fuel`); exhausting the budget returns the
distinguished outcome `GenError.stuck`, which stands for the loop still
running.  The random source `Math.random` is modelled as a stream of raw
draws `rng : Nat → Nat`, one per retry, and `randomInt(0, n - 1)` as the
draw reduced modulo `n` (every index in `[0, n)` is realised by some raw
draw, and every raw draw realises a legal index).
-/

namespace Scheduler

/-- A JavaScript `Date` value: `day` is the local calendar-day number (days
since an epoch whose day `0` is a Thursday, as for the Unix epoch) and
`time` the milliseconds elapsed within that day.  `date-fns` builds month
days at local midnight (`time = 0`), while values handed to the roster may
carry any time of day. -/
structure DDate where
  day : Nat
  time : Nat
deriving DecidableEq

/-- `date-fns` `isEqual`: equality of the underlying timestamps, i.e. of the
full day-plus-time value. -/
def isEqual (a b : DDate) : Bool := a == b

/-- Modelled from the spec: "equality means same calendar day" — equality of
the calendar-day component only, ignoring the time of day.  Stated for
comparison with the `isEqual` test the source actually performs. -/
def sameCalendarDay (a b : DDate) : Bool := a.day == b.day

/-- JS `Date.prototype.getDay`: `0` = Sunday, …, `6` = Saturday; day `0` of
the epoch is a Thursday (`getDay = 4`). -/
def getDay (d : DDate) : Nat := (d.day + 4) % 7

/-- `date-fns` `isFriday`. -/
def isFriday (d : DDate) : Bool := getDay d == 5

/-- `date-fns` `isSaturday`. -/
def isSaturday (d : DDate) : Bool := getDay d == 6

/-- `date-fns` `isSunday`. -/
def isSunday (d : DDate) : Bool := getDay d == 0

/-- The `Member` record of `src/app/page.tsx`.  The numeric `id` field
(`Date.now()` at creation) plays no role in any behaviour modelled here and
is omitted (the second source variant's `Member` has no `id` field). -/
structure Member where
  name : String
  unavailableDates : List DDate
deriving DecidableEq

/-- The `Schedule` record of `src/app/page.tsx` (one duty entry). -/
structure ScheduleEntry where
  date : DDate
  members : List String
deriving DecidableEq

/-- A Month Context: `startOfMonth`/`endOfMonth`/`eachDayOfInterval` of
`date-fns` turn the selected month into the contiguous run of its calendar
days, each at local midnight.  `firstDay` is the day number of the first of
the month and `numDays` the number of days in the month. -/
structure MonthCtx where
  firstDay : Nat
  numDays : Nat

/-- `monthDates` of `src/app/page.tsx`:
`eachDayOfInterval({start: startOfMonth(m), end: endOfMonth(m)})` — every
calendar day of the month, ascending, at local midnight. -/
def monthDates (m : MonthCtx) : List DDate :=
  (List.range m.numDays).map (fun i => ⟨m.firstDay + i, 0⟩)

/-- The eligible duty dates of `generateSchedule`:
`monthDates.filter(date => isSaturday(date) || isSunday(date) || isFriday(date))`. -/
def dutyDates (m : MonthCtx) : List DDate :=
  (monthDates m).filter (fun d => isSaturday d || isSunday d || isFriday d)

/-- `String.prototype.toLowerCase()` as used for the case-insensitive name
match: each character is lower-cased.  Modelled on the underlying character
list (rather than `String.toLower`, whose positional recursion the kernel
cannot evaluate) so that concrete instances compute. -/
def lowerName (s : String) : String := ⟨s.data.map Char.toLower⟩

/-- The merged unavailability computed on the found branch of
`updateMember`: `[...existing, ...newDates.filter(nd => !existing.some(ed => isEqual(ed, nd)))]`. -/
def mergedDates (old nds : List DDate) : List DDate :=
  old ++ nds.filter (fun nd => !(old.any (fun ed => isEqual ed nd)))

/-- `updateMember` of `src/app/page.tsx` (equally, the single-member case of
`updateMembers` in the second source variant): `findIndex` locates the first
member whose name matches case-insensitively; if found, that member is
replaced in place with the merge of the old and new unavailability dates
(old dates first, then the new dates not already present under `isEqual`);
otherwise a fresh member with exactly the given name and dates is appended.
The `findIndex`-then-splice of the source is rendered as structural
recursion over the list: skip non-matching members, rewrite the first match,
append when no member matches. -/
def updateMember : List Member → String → List DDate → List Member
  | [], name, nds => [{ name := name, unavailableDates := nds }]
  | m :: ms, name, nds =>
    if lowerName m.name == lowerName name then
      { m with unavailableDates := mergedDates m.unavailableDates nds } :: ms
    else
      m :: updateMember ms name nds

/-- `memberAssignmentCounts[name] || 0`, incremented on acceptance: the
running assignment counter map, modelled as a total function defaulting
to `0`. -/
def bump (counts : String → Nat) (n : String) : String → Nat :=
  fun x => if x = n then counts n + 1 else counts x

/-- Insertion of one member into a list already sorted ascending by running
count, placed before the first member of greater-or-equal count — the
stable order `Array.prototype.sort` produces with the comparator
`(counts[a.name] || 0) - (counts[b.name] || 0)`. -/
def insertByCount (counts : String → Nat) (m : Member) : List Member → List Member
  | [] => [m]
  | b :: bs =>
    if counts m.name ≤ counts b.name then m :: b :: bs
    else b :: insertByCount counts m bs

/-- `availableForDate.sort((a, b) => (counts[a.name] || 0) - (counts[b.name] || 0))`:
stable ascending sort by running assignment count. -/
def sortByCount (counts : String → Nat) : List Member → List Member
  | [] => []
  | a :: as => insertByCount counts a (sortByCount counts as)

/-- `availableForDate` inside `generateSchedule`:
`members.filter(m => !m.unavailableDates.some(u => isEqual(u, date)))`. -/
def availableForDate (members : List Member) (date : DDate) : List Member :=
  members.filter (fun m => !(m.unavailableDates.any (fun u => isEqual u date)))

/-- `maxMembers` inside `generateSchedule`:
`availableForDate.length < 4 ? availableForDate.length : 4`. -/
def maxMembersFor (members : List Member) (date : DDate) : Nat :=
  if (availableForDate members date).length < 4
  then (availableForDate members date).length else 4

/-- The `while (true)` accept/reject loop of `generateSchedule`: repeatedly
draw `index = randomInt(0, pool.length - 1)` (the raw draw at stream
position `pos`, reduced modulo the pool size) and accept the drawn member
unless their name is already in `picked` for this date.  `fuel` bounds the
number of retries; `none` models the loop still running.  On acceptance the
member and the next stream position are returned. -/
def pickOne (pool : List Member) (picked : List String) (rng : Nat → Nat) :
    Nat → Nat → Option (Member × Nat)
  | _, 0 => none
  | pos, fuel + 1 =>
    match pool[rng pos % pool.length]? with
    | none => none
    | some m =>
      if picked.contains m.name then pickOne pool picked rng (pos + 1) fuel
      else some (m, pos + 1)

/-- The `for (memberIndex = 0; memberIndex < maxMembers; …)` fill loop for
one date: before each pick the candidate array is re-sorted in place
(ascending by running count), so the sorted array is carried along; then one
member is accepted by the retry loop, their name appended to the picked list
and their counter bumped. -/
def fillLoop (rng : Nat → Nat) (fuel : Nat) :
    Nat → List Member → List String → (String → Nat) → Nat →
    Option (List Member × List String × (String → Nat) × Nat)
  | 0, arr, picked, counts, pos => some (arr, picked, counts, pos)
  | k + 1, arr, picked, counts, pos =>
    match pickOne (sortByCount counts arr) picked rng pos fuel with
    | none => none
    | some (m, pos2) =>
      fillLoop rng fuel k (sortByCount counts arr) (picked ++ [m.name])
        (bump counts m.name) pos2

/-- The `dates.forEach` body of `generateSchedule`: skip a date whose
available subset is empty, otherwise fill it and record the duty entry; the
running counters and the random-stream position persist across dates. -/
def genLoop (members : List Member) (rng : Nat → Nat) (fuel : Nat) :
    List DDate → (String → Nat) → Nat → Option (List ScheduleEntry)
  | [], _, _ => some []
  | date :: rest, counts, pos =>
    if 0 < (availableForDate members date).length then
      match fillLoop rng fuel (maxMembersFor members date)
          (availableForDate members date) [] counts pos with
      | none => none
      | some (_, picked, counts2, pos2) =>
        match genLoop members rng fuel rest counts2 pos2 with
        | none => none
        | some s => some ({ date := date, members := picked } :: s)
    else
      genLoop members rng fuel rest counts pos

/-- The failure outcomes of `generateSchedule`: the insufficient-roster
guard, and exhaustion of the retry budget (standing for the unbounded
`while (true)` loop never accepting). -/
inductive GenError where
  | insufficientRoster
  | stuck
deriving DecidableEq

/-- `generateSchedule` of `src/app/page.tsx`: fail with the
insufficient-roster condition when the roster has fewer than 4 members;
otherwise process every eligible (Friday/Saturday/Sunday) date of the month
in ascending order, starting from all-zero counters and stream position 0. -/
def generateSchedule (members : List Member) (month : MonthCtx)
    (rng : Nat → Nat) (fuel : Nat) : Except GenError (List ScheduleEntry) :=
  if members.length < 4 then .error .insufficientRoster
  else
    match genLoop members rng fuel (dutyDates month) (fun _ => 0) 0 with
    | none => .error .stuck
    | some s => .ok s

/-- Concrete fixtures used by witnesses and counterexamples. -/
def m4 : List Member := [⟨"A", []⟩, ⟨"B", []⟩, ⟨"C", []⟩, ⟨"D", []⟩]

/-- Four members plus a fifth, all fully available. -/
def m5 : List Member := m4 ++ [⟨"E", []⟩]

/-- Four members, the first unavailable on day 1. -/
def w4 : List Member := [⟨"A", [⟨1, 0⟩]⟩, ⟨"B", []⟩, ⟨"C", []⟩, ⟨"D", []⟩]

/-- Four members, all unavailable on day 1 (the only eligible date of
`month1`). -/
def u4 : List Member :=
  [⟨"A", [⟨1, 0⟩]⟩, ⟨"B", [⟨1, 0⟩]⟩, ⟨"C", [⟨1, 0⟩]⟩, ⟨"D", [⟨1, 0⟩]⟩]

/-- A month consisting of the single day 1, which is a Friday. -/
def month1 : MonthCtx := ⟨1, 1⟩

/-- A month of the two days 1 (Friday) and 2 (Saturday). -/
def month2 : MonthCtx := ⟨1, 2⟩

/-- A month of the two days 4 (Monday) and 5 (Tuesday): no eligible date. -/
def monthNone : MonthCtx := ⟨4, 2⟩

/-- A raw-draw stream whose first draw accepts the first member and whose
every later draw hits the member already picked. -/
def badRng : Nat → Nat := fun p => if p = 0 then 0 else 3

/-- The raw-draw stream of the fairness counterexample run. -/
def cexRng : Nat → Nat := fun p => if p = 4 ∨ p = 6 ∨ p = 7 then 1 else 0

/-- The slice of the page state the generate action touches: the roster and
the previously generated schedule. -/
structure AppState where
  members : List Member
  schedule : List ScheduleEntry
deriving DecidableEq

/-- The generate-button handler: on success `setSchedule(schedule)` replaces
the generated schedule; on the guard (and while the retry loop has not
returned) no state is mutated. -/
def generateScheduleUpd (st : AppState) (month : MonthCtx)
    (rng : Nat → Nat) (fuel : Nat) : AppState :=
  match generateSchedule st.members month rng fuel with
  | .ok s => { st with schedule := s }
  | .error _ => st

/-! ### Basic lemmas about dates and the roster merge -/

theorem isEqual_iff {a b : DDate} : isEqual a b = true ↔ a = b := by
  simp [isEqual]

/-- On the not-found branch `updateMember` appends a fresh member. -/
theorem updateMember_notFound {members : List Member} {name : String}
    {nds : List DDate} (h : ∀ m ∈ members, lowerName m.name ≠ lowerName name) :
    updateMember members name nds =
      members ++ [{ name := name, unavailableDates := nds }] := by
  induction members with
  | nil => rfl
  | cons m ms ih =>
    have hm : ¬((lowerName m.name == lowerName name) = true) := by
      simpa using h m (List.mem_cons_self m ms)
    simp only [updateMember, if_neg hm, List.cons_append, List.cons.injEq, true_and]
    exact ih (fun x hx => h x (List.mem_cons_of_mem _ hx))

/-- On the found branch `updateMember` rewrites the first matching member in
place, merging the dates and keeping everything else. -/
theorem updateMember_found (name : String) (nds : List DDate) :
    ∀ (pre : List Member) (x : Member) (post : List Member),
      (∀ m ∈ pre, lowerName m.name ≠ lowerName name) →
      lowerName x.name = lowerName name →
      updateMember (pre ++ x :: post) name nds =
        pre ++ { x with unavailableDates := mergedDates x.unavailableDates nds }
          :: post := by
  intro pre
  induction pre with
  | nil =>
    intro x post _ hx
    simp [updateMember, hx]
  | cons m pre ih =>
    intro x post hpre hx
    have hm : ¬((lowerName m.name == lowerName name) = true) := by
      simpa using hpre m (List.mem_cons_self m pre)
    simp only [List.cons_append, updateMember, if_neg hm, List.cons.injEq, true_and]
    exact ih x post (fun y hy => hpre y (List.mem_cons_of_mem _ hy)) hx

/-- The first case-insensitive match of a name in a roster, when one exists. -/
theorem exists_first_match {members : List Member} {name : String}
    (h : ∃ m ∈ members, lowerName m.name = lowerName name) :
    ∃ pre x post, members = pre ++ x :: post ∧
      (∀ m ∈ pre, lowerName m.name ≠ lowerName name) ∧
      lowerName x.name = lowerName name := by
  induction members with
  | nil => simp at h
  | cons m ms ih =>
    by_cases hm : lowerName m.name = lowerName name
    · exact ⟨[], m, ms, rfl, by simp, hm⟩
    · obtain ⟨x, hx, hxe⟩ := h
      rcases List.mem_cons.mp hx with rfl | hx2
      · exact absurd hxe hm
      · obtain ⟨pre, x2, post, he, h1, h2⟩ := ih ⟨x, hx2, hxe⟩
        refine ⟨m :: pre, x2, post, by simp [he], ?_, h2⟩
        intro y hy
        rcases List.mem_cons.mp hy with rfl | hy2
        · exact hm
        · exact h1 y hy2

/-- Membership in the merged unavailability list is membership in the union. -/
theorem mem_mergedDates {old nds : List DDate} {d : DDate} :
    d ∈ mergedDates old nds ↔ d ∈ old ∨ d ∈ nds := by
  simp only [mergedDates, List.mem_append, List.mem_filter, List.any_eq_true,
    Bool.not_eq_true', Bool.not_eq_true]
  constructor
  · rintro (h | ⟨h, _⟩)
    · exact Or.inl h
    · exact Or.inr h
  · rintro (h | h)
    · exact Or.inl h
    · by_cases ho : d ∈ old
      · exact Or.inl ho
      · refine Or.inr ⟨h, ?_⟩
        simp only [List.any_eq_false]
        intro e he
        simp only [isEqual_iff (a := e) (b := d), Bool.eq_false_iff] at ho ⊢
        intro hed
        exact ho (hed ▸ he)

/-- The merge keeps the old dates first and introduces no duplicate date
values when the inputs carry none. -/
theorem mergedDates_nodup {old nds : List DDate}
    (ho : old.Nodup) (hn : nds.Nodup) : (mergedDates old nds).Nodup := by
  rw [mergedDates, List.nodup_append]
  refine ⟨ho, hn.filter _, ?_⟩
  intro d hd hmem
  have := List.of_mem_filter hmem
  simp only [Bool.not_eq_true', List.any_eq_false] at this
  exact this d hd (isEqual_iff.mpr rfl)

/-! ### Claims about the roster merge (C5, C6, C10) -/

/-- C5 counterexample: the merge deduplicates by `isEqual`, which compares
the full date-plus-time value, not the calendar day.  Upserting a date with
the same calendar day but a different time of day as an existing one leaves
two entries for one calendar day, so the claimed same-calendar-day equality
is refuted at this concrete input. -/
theorem merge_by_calendar_day_cex :
    updateMember [⟨"Bob", [⟨5, 0⟩]⟩] "Bob" [⟨5, 1⟩] =
      [⟨"Bob", [⟨5, 0⟩, ⟨5, 1⟩]⟩] ∧
    sameCalendarDay ⟨5, 0⟩ ⟨5, 1⟩ = true ∧
    (⟨5, 0⟩ : DDate) ≠ ⟨5, 1⟩ := by
  refine ⟨by decide, by decide, by decide⟩

/-- C5 (amended): `upsert(name, dates)` on a case-insensitive match replaces
that person's unavailability with the union of the old set and the new
dates, where date equality is the exact date-value equality computed by
`isEqual` (not same-calendar-day equality); the merged order is the existing
dates first followed by the new dates not already present, no duplicate date
values are introduced when the inputs carry none, and without a match a new
person with exactly the given name and dates is appended. -/
theorem upsert_union_exact (members : List Member) (name : String)
    (nds : List DDate) :
    ((∀ m ∈ members, lowerName m.name ≠ lowerName name) →
      updateMember members name nds =
        members ++ [{ name := name, unavailableDates := nds }]) ∧
    (∀ pre x post, members = pre ++ x :: post →
      (∀ m ∈ pre, lowerName m.name ≠ lowerName name) →
      lowerName x.name = lowerName name →
      updateMember members name nds =
        pre ++ { x with unavailableDates := mergedDates x.unavailableDates nds }
          :: post) ∧
    (∀ old d, d ∈ mergedDates old nds ↔ d ∈ old ∨ d ∈ nds) ∧
    (∀ old, old.Nodup → nds.Nodup → (mergedDates old nds).Nodup) := by
  refine ⟨fun h => updateMember_notFound h, ?_, ?_, ?_⟩
  · intro pre x post hmem hpre hx
    subst hmem
    exact updateMember_found name nds pre x post hpre hx
  · intro old d
    exact mem_mergedDates
  · intro old ho hn
    exact mergedDates_nodup ho hn

/-- C5 witness: the amended characterisation applied to the Bob roster. -/
theorem upsert_union_exact_witness :
    updateMember [⟨"Bob", [⟨5, 0⟩]⟩] "Bob" [⟨5, 1⟩] =
      [] ++ { name := "Bob",
              unavailableDates := mergedDates [⟨5, 0⟩] [⟨5, 1⟩] } :: [] :=
  (upsert_union_exact [⟨"Bob", [⟨5, 0⟩]⟩] "Bob" [⟨5, 1⟩]).2.1
    [] ⟨"Bob", [⟨5, 0⟩]⟩ [] rfl (by simp) (by decide)

/-- C6: the at-most-one-person-per-case-folded-name invariant is preserved
by every upsert; the person count is unchanged exactly on the found branch
and grows by one exactly on the not-found branch; and upserting "Ana" with
`d1` then "ana" with `d2` yields exactly one person whose unavailability
contains both dates. -/
theorem roster_name_invariant (members : List Member) (name : String)
    (nds : List DDate) :
    ((members.map (fun m => lowerName m.name)).Nodup →
      ((updateMember members name nds).map (fun m => lowerName m.name)).Nodup) ∧
    ((∃ m ∈ members, lowerName m.name = lowerName name) →
      (updateMember members name nds).length = members.length) ∧
    ((∀ m ∈ members, lowerName m.name ≠ lowerName name) →
      (updateMember members name nds).length = members.length + 1) ∧
    (∀ d1 d2 : DDate,
      (updateMember (updateMember [] "Ana" [d1]) "ana" [d2]).length = 1 ∧
      ∀ m ∈ updateMember (updateMember [] "Ana" [d1]) "ana" [d2],
        d1 ∈ m.unavailableDates ∧ d2 ∈ m.unavailableDates) := by
  refine ⟨?_, ?_, ?_, ?_⟩
  · intro hnd
    by_cases h : ∃ m ∈ members, lowerName m.name = lowerName name
    · obtain ⟨pre, x, post, hmem, hpre, hx⟩ := exists_first_match h
      subst hmem
      rw [updateMember_found name nds pre x post hpre hx]
      simpa using hnd
    · push_neg at h
      rw [updateMember_notFound h]
      simp only [List.map_append, List.map_cons, List.map_nil]
      rw [List.nodup_append]
      refine ⟨hnd, List.nodup_singleton _, ?_⟩
      intro s hs hmem
      simp only [List.mem_singleton] at hmem
      subst hmem
      obtain ⟨m, hm, hms⟩ := List.mem_map.mp hs
      exact h m hm hms
  · intro h
    obtain ⟨pre, x, post, hmem, hpre, hx⟩ := exists_first_match h
    subst hmem
    rw [updateMember_found name nds pre x post hpre hx]
    simp
  · intro h
    rw [updateMember_notFound h]
    simp
  · intro d1 d2
    have h1 : updateMember [] "Ana" [d1] = [⟨"Ana", [d1]⟩] := rfl
    rw [h1]
    have h2 : updateMember [⟨"Ana", [d1]⟩] "ana" [d2] =
        [⟨"Ana", mergedDates [d1] [d2]⟩] := by
      have := updateMember_found "ana" [d2]
        [] ⟨"Ana", [d1]⟩ [] (by simp)
        (by show lowerName "Ana" = lowerName "ana"; decide)
      simpa using this
    rw [h2]
    refine ⟨rfl, ?_⟩
    intro m hm
    simp only [List.mem_singleton] at hm
    subst hm
    constructor
    · exact mem_mergedDates.mpr (Or.inl (by simp))
    · exact mem_mergedDates.mpr (Or.inr (by simp))

/-- C6 witness: the invariant, count laws and merged example at concrete
inputs. -/
theorem roster_name_invariant_witness :
    ((updateMember [⟨"Ana", [⟨3, 0⟩]⟩] "ana" [⟨4, 0⟩]).map
        (fun m => lowerName m.name)).Nodup ∧
    (updateMember [⟨"Ana", [⟨3, 0⟩]⟩] "ana" [⟨4, 0⟩]).length = 1 ∧
    (updateMember [⟨"Ana", [⟨3, 0⟩]⟩] "Bea" [⟨4, 0⟩]).length = 2 := by
  have h1 := (roster_name_invariant [⟨"Ana", [⟨3, 0⟩]⟩] "ana" [⟨4, 0⟩]).1
    (by decide)
  have h2 := (roster_name_invariant [⟨"Ana", [⟨3, 0⟩]⟩] "ana" [⟨4, 0⟩]).2.1
    ⟨⟨"Ana", [⟨3, 0⟩]⟩, by simp, by decide⟩
  have h3 := (roster_name_invariant [⟨"Ana", [⟨3, 0⟩]⟩] "Bea" [⟨4, 0⟩]).2.2.1
    (by decide)
  exact ⟨h1, h2, h3⟩

/-- C10: when the upsert matches an existing person case-insensitively, the
stored person keeps the originally submitted name string — only the
unavailability field changes, the surrounding members are untouched, and the
casing of the later submission is discarded. -/
theorem upsert_keeps_original_casing (members : List Member) (name : String)
    (nds : List DDate) (pre : List Member) (x : Member) (post : List Member)
    (hmem : members = pre ++ x :: post)
    (hpre : ∀ m ∈ pre, lowerName m.name ≠ lowerName name)
    (hx : lowerName x.name = lowerName name) :
    (updateMember members name nds).map (fun m => m.name) =
      members.map (fun m => m.name) ∧
    updateMember members name nds =
      pre ++ { name := x.name,
               unavailableDates := mergedDates x.unavailableDates nds }
        :: post := by
  subst hmem
  have h := updateMember_found name nds pre x post hpre hx
  exact ⟨by rw [h]; simp, h⟩

/-- C10 witness: upserting "ANA" onto a roster holding "Ana" keeps the
stored string "Ana". -/
theorem upsert_keeps_original_casing_witness :
    (updateMember [⟨"Ana", [⟨3, 0⟩]⟩] "ANA" [⟨4, 0⟩]).map (fun m => m.name) =
      ([⟨"Ana", [⟨3, 0⟩]⟩] : List Member).map (fun m => m.name) := by
  exact (upsert_keeps_original_casing [⟨"Ana", [⟨3, 0⟩]⟩] "ANA" [⟨4, 0⟩]
    [] ⟨"Ana", [⟨3, 0⟩]⟩ [] rfl (by simp)
    (by show lowerName "Ana" = lowerName "ANA"; decide)).1

/-! ### Lemmas about the duty assigner -/

theorem insertByCount_perm (counts : String → Nat) (m : Member) :
    ∀ l : List Member, (insertByCount counts m l).Perm (m :: l)
  | [] => List.Perm.refl _
  | b :: bs => by
    rw [insertByCount]
    split
    · exact List.Perm.refl _
    · exact (((insertByCount_perm counts m bs).cons b).trans
        (List.Perm.swap m b bs))

/-- The stable sort is a permutation of its input. -/
theorem sortByCount_perm (counts : String → Nat) :
    ∀ l : List Member, (sortByCount counts l).Perm l
  | [] => List.Perm.refl _
  | a :: as => by
    rw [sortByCount]
    exact (insertByCount_perm counts a (sortByCount counts as)).trans
      ((sortByCount_perm counts as).cons a)

/-- An accepted pick is a pool member whose name was not yet picked. -/
theorem pickOne_mem {pool : List Member} {picked : List String}
    {rng : Nat → Nat} :
    ∀ {pos fuel : Nat} {m : Member} {pos2 : Nat},
      pickOne pool picked rng pos fuel = some (m, pos2) →
      m ∈ pool ∧ m.name ∉ picked := by
  intro pos fuel
  induction fuel generalizing pos with
  | zero =>
    intro m pos2 h
    simp [pickOne] at h
  | succ f ih =>
    intro m pos2 h
    rw [pickOne] at h
    cases hidx : pool[rng pos % pool.length]? with
    | none => rw [hidx] at h; exact absurd h (by simp)
    | some m2 =>
      rw [hidx] at h
      dsimp only at h
      by_cases hc : picked.contains m2.name
      · rw [if_pos hc] at h
        exact ih h
      · rw [if_neg hc] at h
        have hm : m2 = m := by
          simpa using congrArg (fun o => Prod.fst <$> o) h
        subst hm
        exact ⟨List.getElem?_mem hidx, by simpa using hc⟩

/-- What a successful run of the fill loop for one date guarantees: the
picked list grows by exactly `k` names, each a name of a member of the
candidate array, never repeating a name already picked; and the carried
array stays a permutation of the input array. -/
theorem fillLoop_spec {rng : Nat → Nat} {fuel : Nat} :
    ∀ {k : Nat} {arr : List Member} {picked : List String}
      {counts : String → Nat} {pos : Nat}
      {arr2 : List Member} {picked2 : List String} {counts2 : String → Nat}
      {pos2 : Nat},
      fillLoop rng fuel k arr picked counts pos =
        some (arr2, picked2, counts2, pos2) →
      (∃ news, picked2 = picked ++ news ∧ news.length = k ∧
        ∀ n ∈ news, ∃ m ∈ arr, m.name = n) ∧
      arr2.Perm arr ∧
      (picked.Nodup → picked2.Nodup) := by
  intro k
  induction k with
  | zero =>
    intro arr picked counts pos arr2 picked2 counts2 pos2 h
    rw [fillLoop] at h
    obtain ⟨h1, h2, _, _⟩ :
        arr = arr2 ∧ picked = picked2 ∧ counts = counts2 ∧ pos = pos2 := by
      simpa using h
    subst h1; subst h2
    exact ⟨⟨[], by simp, rfl, by simp⟩, List.Perm.refl _, fun h => h⟩
  | succ k ih =>
    intro arr picked counts pos arr2 picked2 counts2 pos2 h
    rw [fillLoop] at h
    cases hp : pickOne (sortByCount counts arr) picked rng pos fuel with
    | none => rw [hp] at h; exact absurd h (by simp)
    | some r =>
      obtain ⟨m, posm⟩ := r
      rw [hp] at h
      obtain ⟨hmem, hnot⟩ := pickOne_mem hp
      have hmarr : m ∈ arr := (sortByCount_perm counts arr).mem_iff.mp hmem
      obtain ⟨⟨news, hn1, hn2, hn3⟩, hperm, hnd⟩ := ih h
      refine ⟨⟨m.name :: news, by simpa using hn1, by simpa using hn2, ?_⟩,
        hperm.trans (sortByCount_perm counts arr), ?_⟩
      · intro n hn
        rcases List.mem_cons.mp hn with rfl | hn
        · exact ⟨m, hmarr, rfl⟩
        · obtain ⟨m2, hm2, hm2n⟩ := hn3 n hn
          exact ⟨m2, (sortByCount_perm counts arr).mem_iff.mp hm2, hm2n⟩
      · intro hpn
        apply hnd
        simpa [List.nodup_append] using ⟨hpn, hnot⟩

/-- What a successful run of the date loop guarantees: one duty entry per
eligible date with a non-empty available subset (in order), and each entry
is filled with exactly `maxMembers` pairwise-distinct names of available
members. -/
theorem genLoop_spec {members : List Member} {rng : Nat → Nat} {fuel : Nat} :
    ∀ {dates : List DDate} {counts : String → Nat} {pos : Nat}
      {s : List ScheduleEntry},
      genLoop members rng fuel dates counts pos = some s →
      s.map (fun e => e.date) =
        dates.filter (fun d => decide (0 < (availableForDate members d).length)) ∧
      ∀ e ∈ s, e.members.Nodup ∧
        e.members.length = maxMembersFor members e.date ∧
        ∀ n ∈ e.members, ∃ m ∈ availableForDate members e.date, m.name = n := by
  intro dates
  induction dates with
  | nil =>
    intro counts pos s h
    rw [genLoop] at h
    obtain rfl : ([] : List ScheduleEntry) = s := by simpa using h
    simp
  | cons date rest ih =>
    intro counts pos s h
    rw [genLoop] at h
    by_cases hav : 0 < (availableForDate members date).length
    · rw [if_pos hav] at h
      cases hf : fillLoop rng fuel (maxMembersFor members date)
          (availableForDate members date) [] counts pos with
      | none => rw [hf] at h; exact absurd h (by simp)
      | some r =>
        obtain ⟨arr2, picked, counts2, pos2⟩ := r
        rw [hf] at h
        dsimp only at h
        cases hg : genLoop members rng fuel rest counts2 pos2 with
        | none => rw [hg] at h; exact absurd h (by simp)
        | some s2 =>
          rw [hg] at h
          obtain rfl : ({ date := date, members := picked } :: s2 : List ScheduleEntry) = s := by
            simpa using h
          obtain ⟨hmap, hall⟩ := ih hg
          obtain ⟨⟨news, hn1, hn2, hn3⟩, _, hnd⟩ := fillLoop_spec hf
          rw [List.nil_append] at hn1
          subst hn1
          constructor
          · simpa [hav] using hmap
          · intro e he
            rcases List.mem_cons.mp he with rfl | he
            · exact ⟨hnd (by simp), hn2, hn3⟩
            · exact hall e he
    · rw [if_neg hav] at h
      obtain ⟨hmap, hall⟩ := ih h
      refine ⟨?_, hall⟩
      simpa [hav] using hmap

/-- Unpacking a successful `generateSchedule` run. -/
theorem generateSchedule_ok {members : List Member} {month : MonthCtx}
    {rng : Nat → Nat} {fuel : Nat} {sched : List ScheduleEntry}
    (h : generateSchedule members month rng fuel = .ok sched) :
    4 ≤ members.length ∧
    genLoop members rng fuel (dutyDates month) (fun _ => 0) 0 = some sched := by
  rw [generateSchedule] at h
  by_cases h4 : members.length < 4
  · rw [if_pos h4] at h
    exact absurd h (by simp)
  · rw [if_neg h4] at h
    refine ⟨by omega, ?_⟩
    cases hg : genLoop members rng fuel (dutyDates month) (fun _ => 0) 0 with
    | none => rw [hg] at h; exact absurd h (by simp)
    | some s => rw [hg] at h; simpa using h

/-- In a roster with no two members sharing a case-folded name, two members
with the same name are the same member. -/
theorem eq_of_lowerName_nodup {members : List Member}
    (hnd : (members.map (fun m => lowerName m.name)).Nodup)
    {a b : Member} (ha : a ∈ members) (hb : b ∈ members)
    (hab : a.name = b.name) : a = b :=
  List.inj_on_of_nodup_map hnd ha hb (by rw [hab])

/-- In a duplicate-free list, the element at index `k` does not occur among
the first `k` elements. -/
theorem not_mem_take_of_nodup :
    ∀ {l : List String} {k : Nat} {n : String},
      l.Nodup → l[k]? = some n → n ∉ l.take k := by
  intro l
  induction l with
  | nil => intro k n _ h; simp at h
  | cons a l ih =>
    intro k n hnd h
    cases k with
    | zero => simp
    | succ k =>
      simp only [List.getElem?_cons_succ] at h
      rw [List.take_succ_cons]
      intro hmem
      rcases List.mem_cons.mp hmem with rfl | hmem
      · exact (List.nodup_cons.mp hnd).1 (List.getElem?_mem h)
      · exact ih (List.nodup_cons.mp hnd).2 h hmem

/-! ### Claims about the duty assigner (C1, C2, C3, C4, C7, C8) -/

/-- C1: for a roster obeying the one-person-per-case-folded-name invariant,
a person with the entry's date in their unavailability set never appears in
that entry's assignee list, in any schedule `generateSchedule` produces,
whatever the random draws. -/
theorem availability_exclusion (members : List Member) (month : MonthCtx)
    (rng : Nat → Nat) (fuel : Nat) (sched : List ScheduleEntry)
    (hwf : (members.map (fun m => lowerName m.name)).Nodup)
    (hok : generateSchedule members month rng fuel = .ok sched)
    (e : ScheduleEntry) (he : e ∈ sched) (p : Member) (hp : p ∈ members)
    (hd : e.date ∈ p.unavailableDates) :
    p.name ∉ e.members := by
  intro hmem
  obtain ⟨_, hg⟩ := generateSchedule_ok hok
  obtain ⟨_, hall⟩ := genLoop_spec hg
  obtain ⟨_, _, hnames⟩ := hall e he
  obtain ⟨m, hm, hmn⟩ := hnames p.name hmem
  have hmm : m ∈ members := List.mem_of_mem_filter hm
  have hpm : p = m := eq_of_lowerName_nodup hwf hp hmm hmn.symm
  subst hpm
  have hpred := List.of_mem_filter hm
  simp only [Bool.not_eq_true', List.any_eq_false] at hpred
  exact absurd (isEqual_iff.mpr rfl) (by simpa using hpred e.date hd)

/-- C1 witness: in the run of the roster `w4` (where "A" is unavailable on
day 1) over the single-Friday month, "A" is excluded from the entry. -/
theorem availability_exclusion_witness : ("A" : String) ∉ ["B", "C", "D"] :=
  availability_exclusion w4 month1 (fun _ => 0) 1
    [⟨⟨1, 0⟩, ["B", "C", "D"]⟩] (by decide) rfl
    ⟨⟨1, 0⟩, ["B", "C", "D"]⟩ (by simp) ⟨"A", [⟨1, 0⟩]⟩ (by decide) (by decide)

/-- C2: with fewer than 4 members `generateSchedule` fails with the
insufficient-roster condition and the page state (roster and previously
generated schedule) is left unchanged; with at least 4 members the guard
never fires.  The guard is the first statement of the function, so no
assignment computation happens on the failing branch. -/
theorem insufficient_roster_guard (st : AppState) (month : MonthCtx)
    (rng : Nat → Nat) (fuel : Nat) :
    (st.members.length < 4 →
      generateSchedule st.members month rng fuel = .error .insufficientRoster ∧
      generateScheduleUpd st month rng fuel = st) ∧
    (4 ≤ st.members.length →
      generateSchedule st.members month rng fuel ≠ .error .insufficientRoster) := by
  constructor
  · intro h4
    have hg : generateSchedule st.members month rng fuel =
        .error .insufficientRoster := by
      rw [generateSchedule, if_pos h4]
    exact ⟨hg, by rw [generateScheduleUpd, hg]⟩
  · intro h4
    rw [generateSchedule, if_neg (by omega)]
    cases hg : genLoop st.members rng fuel (dutyDates month) (fun _ => 0) 0 <;>
      simp

/-- C2 witness: a 3-member roster fails and keeps its state; a 4-member
roster does not hit the guard. -/
theorem insufficient_roster_guard_witness :
    (generateSchedule [⟨"A", []⟩, ⟨"B", []⟩, ⟨"C", []⟩] month1 (fun _ => 0) 1 =
        .error .insufficientRoster ∧
      generateScheduleUpd
          ⟨[⟨"A", []⟩, ⟨"B", []⟩, ⟨"C", []⟩], [⟨⟨9, 0⟩, ["X"]⟩]⟩
          month1 (fun _ => 0) 1 =
        ⟨[⟨"A", []⟩, ⟨"B", []⟩, ⟨"C", []⟩], [⟨⟨9, 0⟩, ["X"]⟩]⟩) ∧
    generateSchedule m4 month1 (fun _ => 0) 1 ≠ .error .insufficientRoster :=
  ⟨(insufficient_roster_guard
      ⟨[⟨"A", []⟩, ⟨"B", []⟩, ⟨"C", []⟩], [⟨⟨9, 0⟩, ["X"]⟩]⟩
      month1 (fun _ => 0) 1).1 (by decide),
    (insufficient_roster_guard ⟨m4, []⟩ month1 (fun _ => 0) 1).2 (by decide)⟩

/-- C3: in any produced schedule, dates whose available subset is empty are
omitted (the emitted dates are exactly the eligible dates with a non-empty
available subset, in order), and every emitted entry carries exactly
`min(4, size of the available subset)` pairwise-distinct assignees, hence
between 1 and 4 of them. -/
theorem entry_shape (members : List Member) (month : MonthCtx)
    (rng : Nat → Nat) (fuel : Nat) (sched : List ScheduleEntry)
    (_h4 : 4 ≤ members.length)
    (hok : generateSchedule members month rng fuel = .ok sched) :
    sched.map (fun e => e.date) =
      (dutyDates month).filter
        (fun d => decide (0 < (availableForDate members d).length)) ∧
    ∀ e ∈ sched,
      e.members.length = min 4 (availableForDate members e.date).length ∧
      e.members.Nodup ∧ 1 ≤ e.members.length ∧ e.members.length ≤ 4 := by
  obtain ⟨_, hg⟩ := generateSchedule_ok hok
  obtain ⟨hmap, hall⟩ := genLoop_spec hg
  refine ⟨hmap, ?_⟩
  intro e he
  obtain ⟨hnd, hlen, _⟩ := hall e he
  have hpos : 0 < (availableForDate members e.date).length := by
    have hms : e.date ∈ sched.map (fun e => e.date) :=
      List.mem_map_of_mem _ he
    rw [hmap] at hms
    simpa using List.of_mem_filter hms
  rw [hlen, maxMembersFor]
  refine ⟨by split <;> omega, hnd, by split <;> omega, by split <;> omega⟩

/-- C3 witness: the shape facts on the entry of the 4-member single-Friday
run. -/
theorem entry_shape_witness :
    (["A", "B", "C", "D"] : List String).length =
      min 4 (availableForDate m4 ⟨1, 0⟩).length ∧
    (["A", "B", "C", "D"] : List String).Nodup ∧
    1 ≤ (["A", "B", "C", "D"] : List String).length ∧
    (["A", "B", "C", "D"] : List String).length ≤ 4 :=
  (entry_shape m4 month1 (fun _ => 0) 1 [⟨⟨1, 0⟩, ["A", "B", "C", "D"]⟩]
    (by decide) rfl).2 ⟨⟨1, 0⟩, ["A", "B", "C", "D"]⟩ (by simp)

/-- C4: the dates `generateSchedule` considers are exactly the calendar days
of the month whose weekday is Friday, Saturday or Sunday, in ascending
calendar order, and consequently the produced entries are in ascending date
order (their assignee lists are built by appending each accepted pick, i.e.
in pick order). -/
theorem eligible_dates_shape (month : MonthCtx) (members : List Member)
    (rng : Nat → Nat) (fuel : Nat) (sched : List ScheduleEntry)
    (hok : generateSchedule members month rng fuel = .ok sched) :
    (∀ d, d ∈ dutyDates month ↔ d ∈ monthDates month ∧
      (isFriday d = true ∨ isSaturday d = true ∨ isSunday d = true)) ∧
    (dutyDates month).Pairwise (fun a b => a.day < b.day) ∧
    (sched.map (fun e => e.date)).Pairwise (fun a b => a.day < b.day) := by
  have hpair : (monthDates month).Pairwise (fun a b => a.day < b.day) := by
    rw [monthDates, List.pairwise_map]
    exact (List.pairwise_lt_range _).imp (by intro a b hab; simpa using hab)
  have hduty : (dutyDates month).Pairwise (fun a b => a.day < b.day) :=
    hpair.sublist (List.filter_sublist _)
  refine ⟨?_, hduty, ?_⟩
  · intro d
    rw [dutyDates, List.mem_filter]
    simp only [Bool.or_eq_true]
    tauto
  · obtain ⟨_, hg⟩ := generateSchedule_ok hok
    obtain ⟨hmap, _⟩ := genLoop_spec hg
    rw [hmap]
    exact hduty.sublist (List.filter_sublist _)

/-- C4 witness: the date facts instantiated on the two-day month run. -/
theorem eligible_dates_shape_witness :
    (dutyDates month2).Pairwise (fun a b => a.day < b.day) ∧
    (([⟨⟨1, 0⟩, ["A", "B", "C", "D"]⟩, ⟨⟨2, 0⟩, ["A", "E", "B", "C"]⟩] :
        List ScheduleEntry).map (fun e => e.date)).Pairwise
      (fun a b => a.day < b.day) :=
  ⟨(eligible_dates_shape month2 m5 cexRng 1
      [⟨⟨1, 0⟩, ["A", "B", "C", "D"]⟩, ⟨⟨2, 0⟩, ["A", "E", "B", "C"]⟩]
      rfl).2.1,
    (eligible_dates_shape month2 m5 cexRng 1
      [⟨⟨1, 0⟩, ["A", "B", "C", "D"]⟩, ⟨⟨2, 0⟩, ["A", "E", "B", "C"]⟩]
      rfl).2.2⟩

/-- C7 counterexample: a run in which an accepted pick is not of minimal
running count.  Over the two-day month, date 1 assigns "A", "B", "C", "D",
so after date 1 the counter of "A" is 1 while "E" (absent from entry 1) has
count 0; at date 2 all five members are available and the first accepted
pick is "A" — a candidate with count 1 accepted while the count-0 candidate
"E" was available and not yet picked, refuting minimal-count selection. -/
theorem minimal_count_pick_cex :
    generateSchedule m5 month2 cexRng 1 =
      .ok [⟨⟨1, 0⟩, ["A", "B", "C", "D"]⟩, ⟨⟨2, 0⟩, ["A", "E", "B", "C"]⟩] ∧
    "E" ∉ ["A", "B", "C", "D"] ∧ "A" ∈ ["A", "B", "C", "D"] ∧
    (⟨"E", []⟩ : Member) ∈ availableForDate m5 ⟨2, 0⟩ :=
  ⟨rfl, by decide, by decide, by decide⟩

/-- C7 (amended): within one date's fill loop the candidate pool is re-sorted
ascending by running count before each pick, but the draw ranges over the
entire available-and-not-yet-picked set, so an accepted pick is guaranteed
only to be an available candidate for the date that was not already picked
for it — not a candidate of minimal running count. -/
theorem pick_from_available_unpicked (members : List Member) (month : MonthCtx)
    (rng : Nat → Nat) (fuel : Nat) (sched : List ScheduleEntry)
    (hok : generateSchedule members month rng fuel = .ok sched)
    (e : ScheduleEntry) (he : e ∈ sched) (k : Nat) (n : String)
    (hk : e.members[k]? = some n) :
    (∃ m ∈ availableForDate members e.date, m.name = n) ∧
    n ∉ e.members.take k := by
  obtain ⟨_, hg⟩ := generateSchedule_ok hok
  obtain ⟨_, hall⟩ := genLoop_spec hg
  obtain ⟨hnd, _, hnames⟩ := hall e he
  exact ⟨hnames n (List.getElem?_mem hk), not_mem_take_of_nodup hnd hk⟩

/-- C7 witness: the second pick of the single-date run is an available
member not among the earlier picks. -/
theorem pick_from_available_unpicked_witness :
    (∃ m ∈ availableForDate m4 ⟨1, 0⟩, m.name = "B") ∧
    "B" ∉ (["A", "B", "C", "D"].take 1) :=
  pick_from_available_unpicked m4 month1 (fun _ => 0) 1
    [⟨⟨1, 0⟩, ["A", "B", "C", "D"]⟩] rfl
    ⟨⟨1, 0⟩, ["A", "B", "C", "D"]⟩ (by simp) 1 "B" (by decide)

/-- C8 counterexample: an empty roster does not yield an empty generated
schedule without error — it hits the insufficient-roster guard. -/
theorem empty_roster_errors_cex :
    generateSchedule ([] : List Member) month1 (fun _ => 0) 0 =
      .error .insufficientRoster ∧
    generateSchedule ([] : List Member) month1 (fun _ => 0) 0 ≠ .ok [] :=
  ⟨rfl, by
    intro h
    have h0 : generateSchedule ([] : List Member) month1 (fun _ => 0) 0 =
        .error .insufficientRoster := rfl
    rw [h0] at h
    exact absurd h (by simp)⟩

/-- C8 (amended): for rosters past the guard (at least 4 people), a roster
with no available person on any eligible date and a month with zero eligible
dates both yield the empty generated schedule without error; an empty
roster (like any roster of fewer than 4) instead fails with the
insufficient-roster condition. -/
theorem empty_schedule_total (members : List Member) (month : MonthCtx)
    (rng : Nat → Nat) (fuel : Nat) (h4 : 4 ≤ members.length) :
    ((∀ d ∈ dutyDates month, availableForDate members d = []) →
      generateSchedule members month rng fuel = .ok []) ∧
    (dutyDates month = [] →
      generateSchedule members month rng fuel = .ok []) := by
  have key : ∀ (dates : List DDate) (counts : String → Nat) (pos : Nat),
      (∀ d ∈ dates, availableForDate members d = []) →
      genLoop members rng fuel dates counts pos = some [] := by
    intro dates
    induction dates with
    | nil => intro counts pos _; rfl
    | cons d rest ih =>
      intro counts pos h
      rw [genLoop, if_neg (by simp [h d (List.mem_cons_self d rest)])]
      exact ih _ _ (fun x hx => h x (List.mem_cons_of_mem _ hx))
  constructor
  · intro h
    rw [generateSchedule, if_neg (by omega), key _ _ _ h]
  · intro h
    rw [generateSchedule, if_neg (by omega), h, key [] _ _ (by simp)]

/-- C8 witness: a roster of 4 all unavailable on the single eligible date,
and a month with no eligible date, both yield the empty schedule. -/
theorem empty_schedule_total_witness :
    generateSchedule u4 month1 (fun _ => 0) 0 = .ok [] ∧
    generateSchedule m4 monthNone (fun _ => 0) 0 = .ok [] :=
  ⟨(empty_schedule_total u4 month1 (fun _ => 0) 0 (by decide)).1 (by decide),
    (empty_schedule_total m4 monthNone (fun _ => 0) 0 (by decide)).2
      (by decide)⟩

/-! ### Termination of the retry loop (C9) -/

/-- With the bad stream, once "A" has been picked and sorted to the back of
the pool, every retry draws index 3 — the picked member — so the loop never
accepts, whatever the remaining budget. -/
theorem badRng_pickOne_none :
    ∀ (fuel pos : Nat), 1 ≤ pos →
      pickOne [⟨"B", []⟩, ⟨"C", []⟩, ⟨"D", []⟩, ⟨"A", []⟩] ["A"] badRng pos
        fuel = none := by
  intro fuel
  induction fuel with
  | zero => intro pos _; rfl
  | succ f ih =>
    intro pos hpos
    rw [pickOne]
    have hr : badRng pos = 3 := by
      rw [badRng]
      exact if_neg (by omega)
    rw [hr]
    have hidx :
        ([⟨"B", []⟩, ⟨"C", []⟩, ⟨"D", []⟩, ⟨"A", []⟩] : List Member)[(3 : Nat) %
          ([⟨"B", []⟩, ⟨"C", []⟩, ⟨"D", []⟩, ⟨"A", []⟩] : List Member).length]? =
          some ⟨"A", []⟩ := rfl
    rw [hidx]
    dsimp only
    rw [if_pos (by decide)]
    exact ih (pos + 1) (by omega)

/-- With the bad stream, the date loop on the single-Friday month never
returns: the first pick accepts "A", after which the second pick's retry
loop rejects forever. -/
theorem badRng_genLoop_none :
    ∀ fuel, genLoop m4 badRng fuel (dutyDates month1) (fun _ => 0) 0 =
      none := by
  intro fuel
  cases fuel with
  | zero => rfl
  | succ f =>
    have hduty : dutyDates month1 = [⟨1, 0⟩] := rfl
    rw [hduty, genLoop, if_pos (by decide)]
    have hmax : maxMembersFor m4 ⟨1, 0⟩ = 4 := rfl
    have hav : availableForDate m4 ⟨1, 0⟩ = m4 := rfl
    rw [hmax, hav, fillLoop]
    have h1 : pickOne (sortByCount (fun _ => 0) m4) [] badRng 0 (f + 1) =
        some (⟨"A", []⟩, 1) := rfl
    rw [h1]
    dsimp only
    rw [fillLoop]
    have h2 : sortByCount (bump (fun _ => 0) (Member.mk "A" []).name)
        (sortByCount (fun _ => 0) m4) =
        [⟨"B", []⟩, ⟨"C", []⟩, ⟨"D", []⟩, ⟨"A", []⟩] := rfl
    rw [h2]
    have h3 : ([] : List String) ++ [(Member.mk "A" []).name] = ["A"] := rfl
    rw [h3, badRng_pickOne_none (f + 1) 1 (by omega)]

/-- C9 counterexample: the retry loop does not terminate for every sequence
of draws.  On the 4-member roster over the single-Friday month, the stream
that draws 0 first and 3 ever after makes the second pick reject forever
(every retry draws the already-picked member), so no retry budget ever
yields a schedule — refuting termination for all draw sequences. -/
theorem retry_divergence_cex :
    ¬ ∃ fuel sched, generateSchedule m4 month1 badRng fuel = .ok sched := by
  rintro ⟨fuel, sched, h⟩
  obtain ⟨_, hg⟩ := generateSchedule_ok h
  rw [badRng_genLoop_none fuel] at hg
  exact absurd hg (by simp)

/-- Any target index of a nonempty pool is realised by some draw within the
next `L` sequential positions. -/
theorem exists_shift (L pos j : Nat) (hj : j < L) :
    ∃ d, d < L ∧ (pos + d) % L = j := by
  have hL : 0 < L := by omega
  have ha : pos % L < L := Nat.mod_lt _ hL
  by_cases h : pos % L ≤ j
  · refine ⟨j - pos % L, by omega, ?_⟩
    have h1 : (pos + (j - pos % L)) % L = (pos % L + (j - pos % L)) % L := by
      conv_lhs => rw [← Nat.mod_add_mod]
    rw [h1, show pos % L + (j - pos % L) = j by omega, Nat.mod_eq_of_lt hj]
  · refine ⟨j + L - pos % L, by omega, ?_⟩
    have h1 : (pos + (j + L - pos % L)) % L =
        (pos % L + (j + L - pos % L)) % L := by
      conv_lhs => rw [← Nat.mod_add_mod]
    rw [h1, show pos % L + (j + L - pos % L) = j + L by omega,
      Nat.add_mod_right, Nat.mod_eq_of_lt hj]

/-- A pool with duplicate-free names holding fewer picked names than members
always offers an unpicked member at some index. -/
theorem exists_unpicked (pool : List Member) (picked : List String)
    (hnd : (pool.map (fun m => m.name)).Nodup)
    (hlt : picked.length < pool.length) :
    ∃ j mj, j < pool.length ∧ pool[j]? = some mj ∧ mj.name ∉ picked := by
  by_contra hcon
  push_neg at hcon
  have hsub2 : (pool.map (fun m => m.name)) ⊆ picked := by
    intro n hn
    obtain ⟨m, hm, rfl⟩ := List.mem_map.mp hn
    obtain ⟨j, hj⟩ := List.getElem?_of_mem hm
    have hjl : j < pool.length := by
      by_contra hge
      rw [List.getElem?_eq_none (by omega)] at hj
      exact absurd hj (by simp)
    exact hcon j m hjl hj
  have : pool.length ≤ picked.length := by
    have hlen : (pool.map (fun m => m.name)).length = pool.length :=
      List.length_map _ _
    calc pool.length = (pool.map (fun m => m.name)).length := hlen.symm
      _ ≤ picked.length := (List.subperm_of_subset hnd hsub2).length_le
  omega

/-- With the sequential draw stream, the retry loop accepts within the
budget as soon as a draw can reach an unpicked index: consecutive raw draws
walk through every index of the pool. -/
theorem pickOne_id_succeeds (pool : List Member) (picked : List String)
    (j : Nat) (mj : Member) (hjm : pool[j]? = some mj)
    (hjn : mj.name ∉ picked) :
    ∀ (d pos fuel : Nat), (pos + d) % pool.length = j → d < fuel →
      ∃ m pos2, pickOne pool picked (fun i => i) pos fuel =
        some (m, pos2) := by
  intro d
  induction d with
  | zero =>
    intro pos fuel hmod hf
    obtain ⟨f, rfl⟩ : ∃ f, fuel = f + 1 := ⟨fuel - 1, by omega⟩
    rw [pickOne]
    rw [Nat.add_zero] at hmod
    have hidx : pool[(fun i : Nat => i) pos % pool.length]? = some mj := by
      dsimp only
      rw [hmod]
      exact hjm
    rw [hidx]
    dsimp only
    rw [if_neg (by simpa using hjn)]
    exact ⟨mj, pos + 1, rfl⟩
  | succ d ih =>
    intro pos fuel hmod hf
    obtain ⟨f, rfl⟩ : ∃ f, fuel = f + 1 := ⟨fuel - 1, by omega⟩
    rw [pickOne]
    have hL : 0 < pool.length := by
      rcases Nat.eq_zero_or_pos pool.length with h0 | h
      · rw [List.length_eq_zero] at h0
        subst h0
        exact absurd hjm (by simp)
      · exact h
    have hplt : pos % pool.length < pool.length := Nat.mod_lt _ hL
    obtain ⟨md, hmd⟩ : ∃ md, pool[pos % pool.length]? = some md :=
      ⟨_, List.getElem?_eq_getElem hplt⟩
    have hidx : pool[(fun i : Nat => i) pos % pool.length]? = some md := hmd
    rw [hidx]
    dsimp only
    by_cases hc : picked.contains md.name
    · rw [if_pos hc]
      have hmod2 : (pos + 1 + d) % pool.length = j := by
        rw [show pos + 1 + d = pos + (d + 1) by omega]
        exact hmod
      exact ih (pos + 1) f hmod2 (by omega)
    · rw [if_neg hc]
      exact ⟨md, pos + 1, rfl⟩

/-- With the sequential draw stream and a retry budget of at least the pool
size, the whole fill loop of one date succeeds: an unpicked candidate always
exists because the fill target never exceeds the pool size. -/
theorem fillLoop_id_succeeds (fuel : Nat) :
    ∀ (k : Nat) (arr : List Member) (picked : List String)
      (counts : String → Nat) (pos : Nat),
      (arr.map (fun m => m.name)).Nodup →
      k + picked.length ≤ arr.length →
      arr.length ≤ fuel →
      ∃ r, fillLoop (fun i => i) fuel k arr picked counts pos = some r := by
  intro k
  induction k with
  | zero =>
    intro arr picked counts pos _ _ _
    exact ⟨(arr, picked, counts, pos), rfl⟩
  | succ k ih =>
    intro arr picked counts pos hnd hk hfuel
    have hperm : (sortByCount counts arr).Perm arr := sortByCount_perm counts arr
    have hlen : (sortByCount counts arr).length = arr.length := hperm.length_eq
    have hndS : ((sortByCount counts arr).map (fun m => m.name)).Nodup :=
      ((hperm.map _).nodup_iff).mpr hnd
    obtain ⟨j, mj, hjl, hjm, hjn⟩ :=
      exists_unpicked (sortByCount counts arr) picked hndS (by omega)
    obtain ⟨d, hd, hmod⟩ := exists_shift (sortByCount counts arr).length pos j hjl
    obtain ⟨m, pos2, hpick⟩ :=
      pickOne_id_succeeds (sortByCount counts arr) picked j mj hjm hjn
        d pos fuel hmod (by omega)
    obtain ⟨r, hr⟩ := ih (sortByCount counts arr) (picked ++ [m.name])
      (bump counts m.name) pos2 hndS (by simp; omega) (by omega)
    refine ⟨r, ?_⟩
    rw [fillLoop, hpick]
    dsimp only
    exact hr

/-- With the sequential draw stream and a retry budget of the roster size,
every date of the schedule run fills successfully. -/
theorem genLoop_id_succeeds (members : List Member)
    (hnd : (members.map (fun m => m.name)).Nodup) :
    ∀ (dates : List DDate) (counts : String → Nat) (pos : Nat),
      ∃ s, genLoop members (fun i => i) members.length dates counts pos =
        some s := by
  intro dates
  induction dates with
  | nil => intro counts pos; exact ⟨[], rfl⟩
  | cons date rest ih =>
    intro counts pos
    by_cases hav : 0 < (availableForDate members date).length
    · have hsubl : List.Sublist (availableForDate members date) members :=
        List.filter_sublist _
      have hndA : ((availableForDate members date).map
          (fun m => m.name)).Nodup :=
        hnd.sublist (hsubl.map _)
      have hkle : maxMembersFor members date ≤
          (availableForDate members date).length := by
        rw [maxMembersFor]; split <;> omega
      have hfle : (availableForDate members date).length ≤ members.length :=
        List.length_filter_le _ _
      obtain ⟨⟨arr2, picked2, counts2, pos2⟩, hfill⟩ :=
        fillLoop_id_succeeds members.length (maxMembersFor members date)
          (availableForDate members date) [] counts pos hndA
          (by simpa using hkle) hfle
      obtain ⟨s2, hs2⟩ := ih counts2 pos2
      refine ⟨{ date := date, members := picked2 } :: s2, ?_⟩
      rw [genLoop, if_pos hav, hfill]
      dsimp only
      rw [hs2]
    · obtain ⟨s2, hs2⟩ := ih counts pos
      exact ⟨s2, by rw [genLoop, if_neg hav]; exact hs2⟩

/-- C9 (amended): at every retry point an available-and-not-yet-picked
candidate exists, because the fill target `min(4, pool size)` never exceeds
the pool size; hence `generateSchedule` terminates for draw sequences that
keep reaching an unpicked candidate — in particular, on any roster of at
least 4 people obeying the unique-case-folded-name invariant, the
sequential draw sequence 0, 1, 2, … with a retry budget of the roster size
produces a schedule for every month.  Termination does not, however, hold
for every sequence of draws: a sequence that forever repeats an
already-picked index makes the accept/retry loop run forever (see the
counterexample). -/
theorem terminates_on_sequential_draws (members : List Member)
    (month : MonthCtx) (h4 : 4 ≤ members.length)
    (hwf : (members.map (fun m => lowerName m.name)).Nodup) :
    ∃ sched, generateSchedule members month (fun i => i) members.length =
      .ok sched := by
  have hnd : (members.map (fun m => m.name)).Nodup := by
    refine List.Nodup.of_map lowerName ?_
    rw [List.map_map]
    exact hwf
  obtain ⟨s, hs⟩ := genLoop_id_succeeds members hnd (dutyDates month)
    (fun _ => 0) 0
  exact ⟨s, by rw [generateSchedule, if_neg (by omega), hs]⟩

/-- C9 witness: the sequential draw stream with budget 4 terminates on the
concrete 4-member roster and single-Friday month. -/
theorem terminates_on_sequential_draws_witness :
    ∃ sched, generateSchedule m4 month1 (fun i => i) m4.length =
      .ok sched :=
  terminates_on_sequential_draws m4 month1 (by decide) (by decide)

end Scheduler
